import Mathlib

set_option maxRecDepth 40000

/-!
Verification of the calculator engine in `script.js`.

The engine is a state machine over the display string, a nullable pending
operand (`previousValue`), a nullable pending operator (`currentOperation`)
and the entry-reset flag (`shouldResetDisplay`).  Each JS handler is
translated below into a pure transition function on `CalcState`.

Modelling decisions, stated once here:
* JS numbers (binary64 floats) are idealised as exact rationals `ℚ`; the
  special value `NaN` (reachable, e.g. `parseFloat("-")`) is carried
  explicitly by `JsNum`.  `Infinity` is unreachable in the idealisation
  because division by zero is absorbed inside `performCalculation`.
* `String(x)` and `parseFloat(s)` are JS builtins.  They are modelled by
  `numToString` / `parseNum`.  `numToString` prints a rational with a
  finite decimal expansion exactly as JS does for such values in normal
  range (no exponent forms), and prints other rationals — which only arise
  from exact division, where real JS would have rounded to a binary64,
  decimal-representable value — in a marked fraction form that `parseNum`
  inverts.  This preserves the round-trip law `parseFloat(String(x)) = x`,
  which holds for every JS number.  `parseNum` agrees with `parseFloat`
  on every unmarked string without exponent part (the only ones the engine
  can show): optional sign, longest digit run, optional fraction; no
  digits at all gives `NaN`.
* `alert(msg)` is modelled by consing `msg` onto an `alerts` log in the
  state (most recent first); it is the only user-facing notice channel,
  and every transition function is total, so no program fault can arise.
* The DOM dispatch layer (`initializeCalculator` etc.) is a thin wrapper
  excluded by the spec; it only ever feeds the digit handlers the strings
  "0".."9" and the operator handler the four symbols `+ - * /`.
-/

/-- Binary operators the engine's dispatch layer can pass to
`handleOperation` (`+ - * /`), plus `%` which `handleModulo` uses.
The JS `switch` default branch is unreachable from these callers. -/
inductive Op where
  | add
  | sub
  | mul
  | div
  | mod
deriving DecidableEq, Repr

/-- Rendering of an operator symbol, as the JS string literals. -/
def opToString : Op → String
  | Op.add => "+"
  | Op.sub => "-"
  | Op.mul => "*"
  | Op.div => "/"
  | Op.mod => "%"

/-- JS number idealised: an exact rational, or NaN. -/
inductive JsNum where
  | nan
  | num (q : ℚ)
deriving DecidableEq, Repr

/-- JS `a + b`: NaN-propagating addition. -/
def jsAdd : JsNum → JsNum → JsNum
  | JsNum.num a, JsNum.num b => JsNum.num (a + b)
  | _, _ => JsNum.nan

/-- JS `a - b`: NaN-propagating subtraction. -/
def jsSub : JsNum → JsNum → JsNum
  | JsNum.num a, JsNum.num b => JsNum.num (a - b)
  | _, _ => JsNum.nan

/-- JS `a * b`: NaN-propagating multiplication. -/
def jsMul : JsNum → JsNum → JsNum
  | JsNum.num a, JsNum.num b => JsNum.num (a * b)
  | _, _ => JsNum.nan

/-- JS strict comparison `x === 0`; false for NaN. -/
def jsEqZero : JsNum → Bool
  | JsNum.num a => decide (a = 0)
  | JsNum.nan => false

/-- JS `a / b` on the paths where `performCalculation` has already ruled
out `b === 0`; exact rational division idealises binary64 division. -/
def jsDivNZ : JsNum → JsNum → JsNum
  | JsNum.num a, JsNum.num b => JsNum.num (a / b)
  | _, _ => JsNum.nan

/-- Truncation toward zero of a rational, the integer `q` in the JS
remainder law `a % b = a - b * trunc (a / b)`. -/
def ratTrunc (x : ℚ) : ℤ :=
  if 0 ≤ x then Int.floor x else Int.ceil x

/-- JS `a % b` for `b ≠ 0`: the truncating, sign-of-dividend remainder. -/
def ratFmod (a b : ℚ) : ℚ :=
  a - b * (ratTrunc (a / b) : ℚ)

/-- JS `a % b` on the paths where `performCalculation` has already ruled
out `b === 0`. -/
def jsModNZ : JsNum → JsNum → JsNum
  | JsNum.num a, JsNum.num b => JsNum.num (ratFmod a b)
  | _, _ => JsNum.nan

/-- The `performCalculation` function of `script.js` (lines 209-250).
The second component is the `alert` message issued, if any: division or
modulo by zero is absorbed by returning the first operand unchanged. -/
def performCalculation (firstValue secondValue : JsNum) (operation : Op) :
    JsNum × Option String :=
  match operation with
  | Op.add => (jsAdd firstValue secondValue, none)
  | Op.sub => (jsSub firstValue secondValue, none)
  | Op.mul => (jsMul firstValue secondValue, none)
  | Op.div =>
      if jsEqZero secondValue then
        (firstValue, some ("Cannot divide by zero!"))
      else
        (jsDivNZ firstValue secondValue, none)
  | Op.mod =>
      if jsEqZero secondValue then
        (firstValue, some ("Cannot perform modulo with zero!"))
      else
        (jsModNZ firstValue secondValue, none)

/-- Character for a decimal digit value below ten. -/
def digitChar : Nat → Char
  | 0 => '0'
  | 1 => '1'
  | 2 => '2'
  | 3 => '3'
  | 4 => '4'
  | 5 => '5'
  | 6 => '6'
  | 7 => '7'
  | 8 => '8'
  | _ => '9'

/-- Numeric value of a decimal digit character. -/
def digitVal (c : Char) : Nat := c.toNat - 48

/-- Decimal digits of `n`, least significant first. -/
def natToRevDigits (n : Nat) : List Char :=
  if h : n < 10 then [digitChar n]
  else digitChar (n % 10) :: natToRevDigits (n / 10)
termination_by n
decreasing_by
  exact Nat.div_lt_self (by omega) (by omega)

/-- Decimal digit string of `n`, most significant first. -/
def natStr (n : Nat) : List Char := (natToRevDigits n).reverse

/-- Decimal digit string of an integer, with a leading minus sign when
negative. -/
def intStr (i : ℤ) : List Char :=
  (if i < 0 then ['-'] else []) ++ natStr i.natAbs

/-- Multiplicity of the factor `p` in `n` (used only to bound the search
for a power of ten the denominator divides). -/
def countP (p : Nat) (n : Nat) : Nat :=
  if h : 2 ≤ p ∧ p ∣ n ∧ n ≠ 0 then countP p (n / p) + 1 else 0
termination_by n
decreasing_by
  exact Nat.div_lt_self (Nat.pos_of_ne_zero h.2.2) (by omega)

/-- Left-pad a digit string with zeros to length at least `n`. -/
def leftPad (n : Nat) (l : List Char) : List Char :=
  List.replicate (n - l.length) '0' ++ l

/-- Insert a decimal point `k` places from the right of a digit string,
padding with leading zeros so an integer part remains. -/
def insertPoint (digits : List Char) (k : Nat) : List Char :=
  if k = 0 then digits
  else
    let padded := leftPad (k + 1) digits
    padded.take (padded.length - k) ++ '.' :: padded.drop (padded.length - k)

/-- Number of decimal places needed for the denominator, when it divides
a power of ten. -/
def ratDecExp (q : ℚ) : Nat := max (countP 2 q.den) (countP 5 q.den)

/-- Plain decimal rendering of a rational whose denominator divides a
power of ten (exactly the values a binary64 float can hold), `none`
otherwise. -/
def ratDecimal (q : ℚ) : Option (List Char) :=
  if 10 ^ ratDecExp q % q.den = 0 then
    some ((if q.num < 0 then ['-'] else []) ++
      insertPoint (natStr (q.num.natAbs * (10 ^ ratDecExp q / q.den))) (ratDecExp q))
  else none

/-- The JS builtin `String(x)` on numbers: "NaN" for NaN, the plain
decimal expansion when one exists; other rationals (unreachable for real
binary64 values) print in a marked fraction form that `parseNum` inverts,
preserving the JS round-trip law. -/
def numToString : JsNum → String
  | JsNum.nan => "NaN"
  | JsNum.num q =>
      match ratDecimal q with
      | some l => String.mk l
      | none => String.mk ('~' :: (intStr q.num ++ '/' :: natStr q.den))

/-- Longest digit run at the head of a character list, with the rest. -/
def spanDigits : List Char → List Char × List Char
  | [] => ([], [])
  | c :: cs =>
      if c.isDigit then
        let r := spanDigits cs
        (c :: r.1, r.2)
      else ([], c :: cs)

/-- Sign handling of `parseFloat`: one optional leading `-` or `+`. -/
def parseSign (l : List Char) : Bool × List Char :=
  match l with
  | c :: t => if c = '-' then (true, t) else if c = '+' then (false, t) else (false, l)
  | [] => (false, [])

/-- Fraction digits of `parseFloat`: a run of digits after a point. -/
def parseFracPart (l : List Char) : List Char :=
  match l with
  | c :: t => if c = '.' then (spanDigits t).1 else []
  | [] => []

/-- Value of a big-endian digit string. -/
def digitsToNatVal (l : List Char) : Nat :=
  l.foldl (fun acc c => acc * 10 + digitVal c) 0

/-- Unsigned part of `parseFloat`: digits, optional point, digits; `none`
when no digit at all was consumed (JS gives NaN there). -/
def parseUnsignedDec (l : List Char) : Option ℚ :=
  if (spanDigits l).1 = [] ∧ parseFracPart (spanDigits l).2 = [] then none
  else
    some ((digitsToNatVal (spanDigits l).1 : ℚ) +
      (digitsToNatVal (parseFracPart (spanDigits l).2) : ℚ) /
        10 ^ (parseFracPart (spanDigits l).2).length)

/-- The JS builtin `parseFloat` on the strings the engine can display:
longest numeric prefix with optional sign, no digits means NaN.
(Exponent forms, hex, `Infinity` and leading whitespace never occur in a
display string and are not modelled.) -/
def parseFloatList (l : List Char) : JsNum :=
  match parseUnsignedDec (parseSign l).2 with
  | none => JsNum.nan
  | some v => JsNum.num (if (parseSign l).1 then -v else v)

/-- Optional leading minus of the marked fraction form. -/
def parseNegSign (l : List Char) : Bool × List Char :=
  match l with
  | c :: t => if c = '-' then (true, t) else (false, l)
  | [] => (false, [])

/-- Inverse of the marked fraction form emitted by `numToString` for
rationals without a finite decimal expansion. -/
def parseFraction (l : List Char) : JsNum :=
  match (spanDigits (parseNegSign l).2).2 with
  | c :: t =>
      if c = '/' then
        if (spanDigits (parseNegSign l).2).1 ≠ [] ∧ (spanDigits t).1 ≠ [] ∧
            (spanDigits t).2 = [] then
          JsNum.num ((if (parseNegSign l).1 then
              -(digitsToNatVal (spanDigits (parseNegSign l).2).1 : ℚ)
            else (digitsToNatVal (spanDigits (parseNegSign l).2).1 : ℚ)) /
            (digitsToNatVal (spanDigits t).1 : ℚ))
        else JsNum.nan
      else JsNum.nan
  | [] => JsNum.nan

/-- Numeric value of a display string (`parseFloat` plus the inverse of
the marked fraction form, see the header note). -/
def parseNum (s : String) : JsNum :=
  match s.toList with
  | c :: t => if c = '~' then parseFraction t else parseFloatList (c :: t)
  | [] => parseFloatList []

/-- The engine state: the module-level variables of `script.js` plus the
two DOM text nodes it writes (`mainDisplay`, `operationDisplay`) and the
log of `alert` notices. -/
structure CalcState where
  display : String
  previousValue : Option JsNum
  currentOperation : Option Op
  shouldResetDisplay : Bool
  operationDisplay : String
  alerts : List String
deriving DecidableEq, Repr

/-- The `updateOperationDisplay` function (lines 60-69): shows
`"{value} {operation}"` when an operation is active, else clears. -/
def updateOperationDisplayText (operation : Option Op) (value : Option JsNum) : String :=
  match operation, value with
  | some op, some v => numToString v ++ " " ++ opToString op
  | _, _ => ""

/-- Record an `alert` notice (most recent first). -/
def pushAlert : Option String → List String → List String
  | none, l => l
  | some m, l => m :: l

/-- The `handleNumberClick` function (lines 76-94). -/
def handleNumberClick (number : String) (s : CalcState) : CalcState :=
  if s.shouldResetDisplay then
    { s with display := number, shouldResetDisplay := false }
  else if s.display = "0" ∧ number ≠ "." then
    { s with display := number }
  else
    { s with display := s.display ++ number }

/-- The `handleDecimal` function (lines 100-113); `includes('.')` is
membership of the point character. -/
def handleDecimal (s : CalcState) : CalcState :=
  if s.shouldResetDisplay then
    { s with display := "0.", shouldResetDisplay := false }
  else if '.' ∈ s.display.toList then s
  else { s with display := s.display ++ "." }

/-- The `handleOperation` function (lines 120-147). -/
def handleOperation (operation : Op) (s : CalcState) : CalcState :=
  let currentValue := parseNum s.display
  let s1 :=
    match s.previousValue, s.currentOperation, s.shouldResetDisplay with
    | some prev, some prevOp, false =>
        let r := performCalculation prev currentValue prevOp
        { s with display := numToString r.1
                 previousValue := some r.1
                 alerts := pushAlert r.2 s.alerts }
    | _, _, _ => { s with previousValue := some currentValue }
  { s1 with currentOperation := some operation
            operationDisplay := updateOperationDisplayText (some operation) s1.previousValue
            shouldResetDisplay := true }

/-- The `handleModulo` function (lines 153-181), translated separately
from `handleOperation` because the source duplicates the logic. -/
def handleModulo (s : CalcState) : CalcState :=
  let currentValue := parseNum s.display
  let s1 :=
    match s.previousValue, s.currentOperation, s.shouldResetDisplay with
    | some prev, some prevOp, false =>
        let r := performCalculation prev currentValue prevOp
        { s with display := numToString r.1
                 previousValue := some r.1
                 currentOperation := some Op.mod
                 alerts := pushAlert r.2 s.alerts }
    | _, _, _ =>
        { s with previousValue := some currentValue, currentOperation := some Op.mod }
  { s1 with operationDisplay := updateOperationDisplayText (some Op.mod) s1.previousValue
            shouldResetDisplay := true }

/-- The `handleSquare` function (lines 187-199). -/
def handleSquare (s : CalcState) : CalcState :=
  let currentValue := parseNum s.display
  let result := jsMul currentValue currentValue
  { s with display := numToString result, shouldResetDisplay := true }

/-- The `handleEquals` function (lines 256-278). -/
def handleEquals (s : CalcState) : CalcState :=
  let currentValue := parseNum s.display
  match s.previousValue, s.currentOperation with
  | some prev, some op =>
      let r := performCalculation prev currentValue op
      { s with display := numToString r.1
               previousValue := none
               currentOperation := none
               operationDisplay := updateOperationDisplayText none none
               shouldResetDisplay := true
               alerts := pushAlert r.2 s.alerts }
  | _, _ => s

/-- The `handleClear` function (lines 284-295). -/
def handleClear (s : CalcState) : CalcState :=
  { s with previousValue := none
           currentOperation := none
           shouldResetDisplay := true
           display := "0"
           operationDisplay := updateOperationDisplayText none none }

/-- The `handleBackspace` function (lines 301-314); `slice(0, -1)` drops
the last character. -/
def handleBackspace (s : CalcState) : CalcState :=
  if 1 < s.display.length then
    { s with display := String.mk s.display.toList.dropLast }
  else
    { s with display := "0", shouldResetDisplay := true }

/-- State at program start: variables per lines 24-30, display "0" and an
empty indicator per the HTML. -/
def initialState : CalcState :=
  { display := "0"
    previousValue := none
    currentOperation := none
    shouldResetDisplay := true
    operationDisplay := ""
    alerts := [] }

/-- One public engine operation, as dispatched by the UI layer. -/
inductive CalcOp where
  | digit (d : Char)
  | decimalPoint
  | binaryOperator (op : Op)
  | modulo
  | square
  | equals
  | clear
  | backspace
deriving DecidableEq, Repr

/-- Transition function of the engine for one public operation. -/
def step : CalcOp → CalcState → CalcState
  | CalcOp.digit d => handleNumberClick (String.singleton d)
  | CalcOp.decimalPoint => handleDecimal
  | CalcOp.binaryOperator op => handleOperation op
  | CalcOp.modulo => handleModulo
  | CalcOp.square => handleSquare
  | CalcOp.equals => handleEquals
  | CalcOp.clear => handleClear
  | CalcOp.backspace => handleBackspace

/-- Run a sequence of public operations from a state. -/
def applyOps (ops : List CalcOp) (s : CalcState) : CalcState :=
  ops.foldl (fun t o => step o t) s

/-- Digit-string check used by the spec's display grammar. -/
def isDigitList (l : List Char) : Bool := l.all Char.isDigit

/-- Integer-part alternative of the spec grammar: `0 | [1-9][0-9]*`. -/
def intPartOK : List Char → Bool
  | [] => false
  | c :: cs =>
      if c = '0' then cs.isEmpty
      else c.isDigit && isDigitList cs

/-- Split a character list at its first decimal point, if any. -/
def breakDot : List Char → List Char × Option (List Char)
  | [] => ([], none)
  | c :: cs =>
      if c = '.' then ([], some cs)
      else
        let r := breakDot cs
        (c :: r.1, r.2)

/-- Display grammar of spec section 3: `0 | [1-9][0-9]*`, optionally
followed by a point and trailing digits; at most one point; no leading
zero except for "0" and "0.".  This definition follows the spec's words;
the claims compare the code's reachable displays against it. -/
def specDisplayGrammar (s : String) : Bool :=
  intPartOK (breakDot s.toList).1 &&
    (match (breakDot s.toList).2 with
     | none => true
     | some t => isDigitList t)

/-- Operations that only edit the number being entered: digit buttons
(which the dispatch layer only fires with digit characters), the decimal
point, backspace and clear. -/
def isEntryOp : CalcOp → Bool
  | CalcOp.digit d => d.isDigit
  | CalcOp.decimalPoint => true
  | CalcOp.backspace => true
  | CalcOp.clear => true
  | _ => false

/-- Entry handlers never touch the pending state: `handleNumberClick`. -/
theorem handleNumberClick_frame (number : String) (s : CalcState) :
    (handleNumberClick number s).previousValue = s.previousValue ∧
    (handleNumberClick number s).currentOperation = s.currentOperation ∧
    (handleNumberClick number s).operationDisplay = s.operationDisplay := by
  unfold handleNumberClick
  split_ifs <;> exact ⟨rfl, rfl, rfl⟩

/-- Entry handlers never touch the pending state: `handleDecimal`. -/
theorem handleDecimal_frame (s : CalcState) :
    (handleDecimal s).previousValue = s.previousValue ∧
    (handleDecimal s).currentOperation = s.currentOperation ∧
    (handleDecimal s).operationDisplay = s.operationDisplay := by
  unfold handleDecimal
  split_ifs <;> exact ⟨rfl, rfl, rfl⟩

/-- Entry handlers never touch the pending state: `handleBackspace`. -/
theorem handleBackspace_frame (s : CalcState) :
    (handleBackspace s).previousValue = s.previousValue ∧
    (handleBackspace s).currentOperation = s.currentOperation ∧
    (handleBackspace s).operationDisplay = s.operationDisplay := by
  unfold handleBackspace
  split_ifs <;> exact ⟨rfl, rfl, rfl⟩

/-- Square touches only the display and the reset flag. -/
theorem handleSquare_frame (s : CalcState) :
    (handleSquare s).previousValue = s.previousValue ∧
    (handleSquare s).currentOperation = s.currentOperation ∧
    (handleSquare s).operationDisplay = s.operationDisplay := by
  exact ⟨rfl, rfl, rfl⟩

/-- Pending operand and pending operator are both absent or both present. -/
def pendingTogether (s : CalcState) : Prop :=
  (s.previousValue = none ∧ s.currentOperation = none) ∨
  (s.previousValue ≠ none ∧ s.currentOperation ≠ none)

/-- After an operator press both pending fields are populated. -/
theorem handleOperation_pending (op : Op) (s : CalcState) :
    (handleOperation op s).previousValue ≠ none ∧
    (handleOperation op s).currentOperation = some op := by
  obtain ⟨d, pv, co, rst, od, al⟩ := s
  cases pv <;> cases co <;> cases rst <;>
    exact ⟨by simp [handleOperation], rfl⟩

/-- After a modulo press both pending fields are populated. -/
theorem handleModulo_pending (s : CalcState) :
    (handleModulo s).previousValue ≠ none ∧
    (handleModulo s).currentOperation = some Op.mod := by
  obtain ⟨d, pv, co, rst, od, al⟩ := s
  cases pv <;> cases co <;> cases rst <;>
    exact ⟨by simp [handleModulo], rfl⟩

/-- Equals either clears both pending fields or leaves the state alone. -/
theorem handleEquals_pending (s : CalcState) :
    ((handleEquals s).previousValue = none ∧ (handleEquals s).currentOperation = none) ∨
    handleEquals s = s := by
  obtain ⟨d, pv, co, rst, od, al⟩ := s
  cases pv <;> cases co <;> simp [handleEquals]

/-- Every public operation preserves the pending-fields pairing. -/
theorem step_preserves_pendingTogether (o : CalcOp) (s : CalcState)
    (h : pendingTogether s) : pendingTogether (step o s) := by
  cases o with
  | digit d =>
      have hf := handleNumberClick_frame (String.singleton d) s
      unfold pendingTogether at h ⊢
      rw [step, hf.1, hf.2.1]
      exact h
  | decimalPoint =>
      have hf := handleDecimal_frame s
      unfold pendingTogether at h ⊢
      rw [step, hf.1, hf.2.1]
      exact h
  | binaryOperator op =>
      have hp := handleOperation_pending op s
      exact Or.inr ⟨hp.1, by rw [step, hp.2]; simp⟩
  | modulo =>
      have hp := handleModulo_pending s
      exact Or.inr ⟨hp.1, by rw [step, hp.2]; simp⟩
  | square =>
      have hf := handleSquare_frame s
      unfold pendingTogether at h ⊢
      rw [step, hf.1, hf.2.1]
      exact h
  | equals =>
      rcases handleEquals_pending s with hcl | hid
      · exact Or.inl hcl
      · rw [step, hid]; exact h
  | clear =>
      exact Or.inl ⟨rfl, rfl⟩
  | backspace =>
      have hf := handleBackspace_frame s
      unfold pendingTogether at h ⊢
      rw [step, hf.1, hf.2.1]
      exact h

/-- Sequences of public operations preserve the pending-fields pairing. -/
theorem applyOps_preserves_pendingTogether (ops : List CalcOp) (s : CalcState)
    (h : pendingTogether s) : pendingTogether (applyOps ops s) := by
  induction ops generalizing s with
  | nil => exact h
  | cons o ops ih => exact ih (step o s) (step_preserves_pendingTogether o s h)

/-- C1: from the initial state, the run digit 5, operator +, digit 3,
equals ends with display "8", empty indicator, both pending fields
absent and the entry-reset flag set. -/
theorem C1_five_plus_three_equals_eight :
    (applyOps [CalcOp.digit '5', CalcOp.binaryOperator Op.add, CalcOp.digit '3',
      CalcOp.equals] initialState).display = "8" ∧
    (applyOps [CalcOp.digit '5', CalcOp.binaryOperator Op.add, CalcOp.digit '3',
      CalcOp.equals] initialState).operationDisplay = "" ∧
    (applyOps [CalcOp.digit '5', CalcOp.binaryOperator Op.add, CalcOp.digit '3',
      CalcOp.equals] initialState).previousValue = none ∧
    (applyOps [CalcOp.digit '5', CalcOp.binaryOperator Op.add, CalcOp.digit '3',
      CalcOp.equals] initialState).currentOperation = none ∧
    (applyOps [CalcOp.digit '5', CalcOp.binaryOperator Op.add, CalcOp.digit '3',
      CalcOp.equals] initialState).shouldResetDisplay = true := by
  refine ⟨?_, ?_, ?_, ?_, ?_⟩ <;> with_unfolding_all decide

/-- C4: in every state reachable from the initial state by public
operations, the pending operand and pending operator are both present or
both absent. -/
theorem C4_pending_operand_operator_paired (ops : List CalcOp) :
    pendingTogether (applyOps ops initialState) := by
  exact applyOps_preserves_pendingTogether ops initialState (Or.inl ⟨rfl, rfl⟩)

/-- C6: the dedicated modulo handler is the same transition function as
the generic operator handler applied to `%`, on every state. -/
theorem C6_modulo_equals_binary_operator_mod (s : CalcState) :
    handleModulo s = handleOperation Op.mod s := by
  obtain ⟨d, pv, co, rst, od, al⟩ := s
  cases pv <;> cases co <;> cases rst <;> rfl

/-- C8: square replaces the display with the product of the display value
with itself and sets the reset flag, leaving the pending operand, pending
operator and indicator untouched; concretely digit 5 then square shows
"25". -/
theorem C8_square_squares_display_and_frames_pending :
    (∀ s : CalcState,
      (handleSquare s).display =
        numToString (jsMul (parseNum s.display) (parseNum s.display)) ∧
      (handleSquare s).shouldResetDisplay = true ∧
      (handleSquare s).previousValue = s.previousValue ∧
      (handleSquare s).currentOperation = s.currentOperation ∧
      (handleSquare s).operationDisplay = s.operationDisplay) ∧
    (applyOps [CalcOp.digit '5', CalcOp.square] initialState).display = "25" := by
  exact ⟨fun s => ⟨rfl, rfl, rfl, rfl, rfl⟩, by with_unfolding_all decide⟩

/-- C10: digit entry, decimal-point entry and backspace leave the pending
operand, pending operator and the operation indicator unchanged. -/
theorem C10_entry_ops_preserve_pending (s : CalcState) (number : String) :
    (handleNumberClick number s).previousValue = s.previousValue ∧
    (handleNumberClick number s).currentOperation = s.currentOperation ∧
    (handleNumberClick number s).operationDisplay = s.operationDisplay ∧
    (handleDecimal s).previousValue = s.previousValue ∧
    (handleDecimal s).currentOperation = s.currentOperation ∧
    (handleDecimal s).operationDisplay = s.operationDisplay ∧
    (handleBackspace s).previousValue = s.previousValue ∧
    (handleBackspace s).currentOperation = s.currentOperation ∧
    (handleBackspace s).operationDisplay = s.operationDisplay := by
  obtain ⟨h1, h2, h3⟩ := handleNumberClick_frame number s
  obtain ⟨h4, h5, h6⟩ := handleDecimal_frame s
  obtain ⟨h7, h8, h9⟩ := handleBackspace_frame s
  exact ⟨h1, h2, h3, h4, h5, h6, h7, h8, h9⟩

/-- C2: when both pending fields are set, the display value is zero and
the pending operator is division (or modulo), equals issues the
user-facing notice, shows the left-hand operand unchanged, and still
clears the pending fields, empties the indicator and sets the reset flag
exactly as a successful equals would.  Totality of `handleEquals` is the
absence of a program fault; the alert log is the only notice channel. -/
theorem C2_divide_or_modulo_by_zero_absorbed (s : CalcState) (prev : JsNum) (op0 : Op)
    (hp : s.previousValue = some prev) (hc : s.currentOperation = some op0)
    (hop : op0 = Op.div ∨ op0 = Op.mod)
    (hz : parseNum s.display = JsNum.num 0) :
    (handleEquals s).display = numToString prev ∧
    (handleEquals s).alerts =
      (if op0 = Op.div then "Cannot divide by zero!" else "Cannot perform modulo with zero!")
        :: s.alerts ∧
    (handleEquals s).previousValue = none ∧
    (handleEquals s).currentOperation = none ∧
    (handleEquals s).shouldResetDisplay = true ∧
    (handleEquals s).operationDisplay = "" := by
  obtain ⟨d, pv, co, rst, od, al⟩ := s
  simp only at hp hc hz
  subst hp
  subst hc
  rcases hop with h | h <;> subst h <;>
    simp [handleEquals, performCalculation, hz, jsEqZero, pushAlert,
      updateOperationDisplayText]

/-- C2 witness: the reachable state after digit 5, operator /, digit 0
satisfies the hypotheses, and equals keeps the display at "5". -/
theorem C2_witness_five_div_zero :
    (applyOps [CalcOp.digit '5', CalcOp.binaryOperator Op.div, CalcOp.digit '0']
        initialState).previousValue = some (JsNum.num 5) ∧
    (applyOps [CalcOp.digit '5', CalcOp.binaryOperator Op.div, CalcOp.digit '0']
        initialState).currentOperation = some Op.div ∧
    parseNum (applyOps [CalcOp.digit '5', CalcOp.binaryOperator Op.div, CalcOp.digit '0']
        initialState).display = JsNum.num 0 ∧
    (handleEquals (applyOps [CalcOp.digit '5', CalcOp.binaryOperator Op.div,
        CalcOp.digit '0'] initialState)).display = numToString (JsNum.num 5) := by
  refine ⟨by with_unfolding_all decide, by with_unfolding_all decide,
    by with_unfolding_all decide, ?_⟩
  exact (C2_divide_or_modulo_by_zero_absorbed _ (JsNum.num 5) Op.div
    (by with_unfolding_all decide) (by with_unfolding_all decide) (Or.inl rfl)
    (by with_unfolding_all decide)).1

/-- C7 counterexample: the reachable display "-5" (from 3 - 8 =) has
length greater than one, and backspace leaves the invalid token "-"
instead of the fallback "0" the claim requires. -/
theorem C7_counterexample_backspace_minus_five :
    (applyOps [CalcOp.digit '3', CalcOp.binaryOperator Op.sub, CalcOp.digit '8',
      CalcOp.equals] initialState).display = "-5" ∧
    (applyOps [CalcOp.digit '3', CalcOp.binaryOperator Op.sub, CalcOp.digit '8',
      CalcOp.equals, CalcOp.backspace] initialState).display = "-" := by
  exact ⟨by with_unfolding_all decide, by with_unfolding_all decide⟩

/-- C7 amended: backspace on a display longer than one character always
just drops the last character — even when that leaves the lone token "-"
— and on a display of length at most one it resets the display to "0"
and sets the entry-reset flag. -/
theorem C7_backspace_drops_last_or_resets (s : CalcState) :
    (1 < s.display.length →
      (handleBackspace s).display = String.mk s.display.toList.dropLast ∧
      (handleBackspace s).shouldResetDisplay = s.shouldResetDisplay) ∧
    (s.display.length ≤ 1 →
      (handleBackspace s).display = "0" ∧
      (handleBackspace s).shouldResetDisplay = true) := by
  constructor
  · intro h
    unfold handleBackspace
    rw [if_pos h]
    exact ⟨rfl, rfl⟩
  · intro h
    unfold handleBackspace
    rw [if_neg (by omega)]
    exact ⟨rfl, rfl⟩

/-- C7 amended witness: on the reachable display "-5" backspace drops the
final character and keeps the reset flag. -/
theorem C7_witness_backspace :
    1 < (applyOps [CalcOp.digit '3', CalcOp.binaryOperator Op.sub, CalcOp.digit '8',
        CalcOp.equals] initialState).display.length ∧
    ((handleBackspace (applyOps [CalcOp.digit '3', CalcOp.binaryOperator Op.sub,
        CalcOp.digit '8', CalcOp.equals] initialState)).display =
      String.mk (applyOps [CalcOp.digit '3', CalcOp.binaryOperator Op.sub,
        CalcOp.digit '8', CalcOp.equals] initialState).display.toList.dropLast ∧
     (handleBackspace (applyOps [CalcOp.digit '3', CalcOp.binaryOperator Op.sub,
        CalcOp.digit '8', CalcOp.equals] initialState)).shouldResetDisplay =
      (applyOps [CalcOp.digit '3', CalcOp.binaryOperator Op.sub, CalcOp.digit '8',
        CalcOp.equals] initialState).shouldResetDisplay) := by
  refine ⟨by with_unfolding_all decide, ?_⟩
  exact (C7_backspace_drops_last_or_resets _).1 (by with_unfolding_all decide)

/-- C3 counterexample: the engine-reachable run 5 - 7 = shows "-2", which
the spec's display grammar rejects (it admits no minus sign), so the
grammar invariant does not hold over all public operations. -/
theorem C3_counterexample_negative_display :
    (applyOps [CalcOp.digit '5', CalcOp.binaryOperator Op.sub, CalcOp.digit '7',
      CalcOp.equals] initialState).display = "-2" ∧
    specDisplayGrammar ((applyOps [CalcOp.digit '5', CalcOp.binaryOperator Op.sub,
      CalcOp.digit '7', CalcOp.equals] initialState).display) = false := by
  exact ⟨by with_unfolding_all decide, by with_unfolding_all decide⟩

/-- Strings with equal character lists are equal. -/
theorem string_toList_inj {s t : String} (h : s.toList = t.toList) : s = t := by
  cases s
  cases t
  exact congrArg String.mk h

/-- Rebuilding a string from its character list is the identity. -/
theorem string_mk_toList (s : String) : String.mk s.toList = s := by
  cases s
  rfl

/-- Appending strings appends their character lists. -/
theorem string_toList_append (a b : String) : (a ++ b).toList = a.toList ++ b.toList := by
  cases a
  cases b
  rfl

/-- A digit character is not the decimal point. -/
theorem digit_ne_dot {d : Char} (hd : d.isDigit = true) : d ≠ '.' := by
  intro e
  subst e
  exact absurd hd (by decide)

/-- Splitting a dot-free list finds no dot. -/
theorem breakDot_no_dot {l : List Char} (h : '.' ∉ l) : breakDot l = (l, none) := by
  induction l with
  | nil => rfl
  | cons c cs ih =>
      have hc : c ≠ '.' := fun e => h (e ▸ List.mem_cons_self c cs)
      have hcs : '.' ∉ cs := fun m => h (List.mem_cons_of_mem c m)
      simp [breakDot, hc, ih hcs]

/-- Splitting at an explicit first dot. -/
theorem breakDot_dot {a b : List Char} (h : '.' ∉ a) :
    breakDot (a ++ '.' :: b) = (a, some b) := by
  induction a with
  | nil => simp [breakDot]
  | cons c cs ih =>
      have hc : c ≠ '.' := fun e => h (e ▸ List.mem_cons_self c cs)
      have hcs : '.' ∉ cs := fun m => h (List.mem_cons_of_mem c m)
      simp [breakDot, hc, ih hcs]

/-- Inversion for `breakDot`: either the list is dot-free and returned
whole, or it splits as a dot-free part, the first dot, and a tail. -/
theorem breakDot_inv (l : List Char) :
    ((breakDot l).2 = none ∧ (breakDot l).1 = l ∧ '.' ∉ l) ∨
    (∃ b, (breakDot l).2 = some b ∧ l = (breakDot l).1 ++ '.' :: b ∧
      '.' ∉ (breakDot l).1) := by
  induction l with
  | nil => exact Or.inl ⟨rfl, rfl, by simp⟩
  | cons c cs ih =>
      by_cases hc : c = '.'
      · subst hc
        exact Or.inr ⟨cs, by simp [breakDot], by simp [breakDot], by simp [breakDot]⟩
      · rcases ih with ⟨h2, h1, hnd⟩ | ⟨b, h2, he, hnd⟩
        · refine Or.inl ⟨by simp [breakDot, hc, h2], by simp [breakDot, hc, h1], ?_⟩
          exact fun m => (List.mem_cons.mp m).elim (fun e => hc e.symm) hnd
        · refine Or.inr ⟨b, by simp [breakDot, hc, h2], ?_, ?_⟩
          · simp only [breakDot, if_neg hc]
            exact congrArg (c :: ·) he
          · simp only [breakDot, if_neg hc]
            exact fun m => (List.mem_cons.mp m).elim (fun e => hc e.symm) hnd

/-- Digit lists contain no dot. -/
theorem isDigitList_no_dot {l : List Char} (h : isDigitList l = true) : '.' ∉ l := by
  intro m
  have hm := List.all_eq_true.mp h '.' m
  exact absurd hm (by decide)

/-- A well-formed integer part is all digits. -/
theorem intPartOK_digits {l : List Char} (h : intPartOK l = true) :
    isDigitList l = true := by
  cases l with
  | nil => exact absurd h (by decide)
  | cons c cs =>
      by_cases hc : c = '0'
      · subst hc
        have : cs.isEmpty = true := by simpa [intPartOK] using h
        have : cs = [] := by simpa [List.isEmpty_iff] using this
        subst this
        decide
      · have h' := h
        simp [intPartOK, hc, isDigitList] at h'
        refine List.all_eq_true.mpr ?_
        intro x m
        rcases List.mem_cons.mp m with e | m2
        · exact e ▸ h'.1
        · exact h'.2 x m2

/-- A well-formed integer part contains no dot. -/
theorem intPartOK_no_dot {l : List Char} (h : intPartOK l = true) : '.' ∉ l :=
  isDigitList_no_dot (intPartOK_digits h)

/-- A single digit is a well-formed integer part. -/
theorem intPartOK_singleton {d : Char} (hd : d.isDigit = true) :
    intPartOK [d] = true := by
  by_cases h0 : d = '0'
  · subst h0
    decide
  · simp [intPartOK, h0, hd, isDigitList]

/-- Appending a digit to a well-formed integer part other than "0" keeps
it well-formed. -/
theorem intPartOK_append_digit {l : List Char} {d : Char} (h : intPartOK l = true)
    (hne : l ≠ ['0']) (hd : d.isDigit = true) : intPartOK (l ++ [d]) = true := by
  cases l with
  | nil => exact absurd h (by decide)
  | cons c cs =>
      by_cases hc : c = '0'
      · subst hc
        have : cs.isEmpty = true := by simpa [intPartOK] using h
        have : cs = [] := by simpa [List.isEmpty_iff] using this
        subst this
        exact absurd rfl hne
      · have h' := h
        simp [intPartOK, hc, isDigitList] at h'
        have hall : isDigitList (cs ++ [d]) = true := by
          refine List.all_eq_true.mpr ?_
          intro x m
          rcases List.mem_append.mp m with m1 | m2
          · exact h'.2 x m1
          · exact (List.mem_singleton.mp m2) ▸ hd
        simp [intPartOK, hc, h'.1, hall]

/-- Dropping the last digit of a digit list leaves a digit list. -/
theorem isDigitList_dropLast {l : List Char} (h : isDigitList l = true) :
    isDigitList l.dropLast = true := by
  simp only [isDigitList, List.all_eq_true] at h ⊢
  exact fun c m => h c (List.dropLast_subset l m)

/-- Dropping the last character of a well-formed integer part of length
at least two keeps it well-formed. -/
theorem intPartOK_dropLast {l : List Char} (h : intPartOK l = true)
    (hlen : 2 ≤ l.length) : intPartOK l.dropLast = true := by
  cases l with
  | nil => exact absurd h (by decide)
  | cons c cs =>
      cases cs with
      | nil => simp at hlen
      | cons c2 cs2 =>
          by_cases hc : c = '0'
          · subst hc
            exact absurd h (by simp [intPartOK])
          · have h' := h
            simp [intPartOK, hc, isDigitList] at h'
            rw [List.dropLast_cons₂]
            have hall : isDigitList (c2 :: cs2) = true := by
              refine List.all_eq_true.mpr ?_
              intro x m
              rcases List.mem_cons.mp m with e | m2
              · exact e ▸ h'.2.1
              · exact h'.2.2 x m2
            simp [intPartOK, hc, h'.1, isDigitList_dropLast hall]

/-- A dot-free well-formed integer part satisfies the display grammar. -/
theorem grammar_no_dot {l : List Char} (hnd : '.' ∉ l) (hip : intPartOK l = true) :
    specDisplayGrammar (String.mk l) = true := by
  unfold specDisplayGrammar
  rw [show (String.mk l).toList = l from rfl, breakDot_no_dot hnd]
  simp [hip]

/-- A well-formed integer part, a dot and trailing digits satisfy the
display grammar. -/
theorem grammar_dot {a b : List Char} (hnd : '.' ∉ a) (hip : intPartOK a = true)
    (hb : isDigitList b = true) :
    specDisplayGrammar (String.mk (a ++ '.' :: b)) = true := by
  unfold specDisplayGrammar
  rw [show (String.mk (a ++ '.' :: b)).toList = a ++ '.' :: b from rfl, breakDot_dot hnd]
  simp [hip, hb]

/-- Inversion of the display grammar into its two shapes. -/
theorem grammar_cases {s : String} (h : specDisplayGrammar s = true) :
    ('.' ∉ s.toList ∧ intPartOK s.toList = true) ∨
    (∃ a b, s.toList = a ++ '.' :: b ∧ '.' ∉ a ∧ intPartOK a = true ∧
      isDigitList b = true) := by
  unfold specDisplayGrammar at h
  rcases breakDot_inv s.toList with ⟨h2, h1, hnd⟩ | ⟨b, h2, he, hnd⟩
  · rw [h2, h1] at h
    simp at h
    exact Or.inl ⟨hnd, h⟩
  · rw [h2] at h
    simp at h
    exact Or.inr ⟨(breakDot s.toList).1, b, he, hnd, h.1, h.2⟩

/-- Every entry operation (digit with a digit character, decimal point,
backspace, clear) preserves the display grammar. -/
theorem entry_step_grammar (o : CalcOp) (s : CalcState) (ho : isEntryOp o = true)
    (h : specDisplayGrammar s.display = true) :
    specDisplayGrammar (step o s).display = true := by
  cases o with
  | digit d =>
      have hd : d.isDigit = true := ho
      have hdd : d ≠ '.' := digit_ne_dot hd
      have hnds : '.' ∉ [d] := fun m => hdd (List.mem_singleton.mp m).symm
      show specDisplayGrammar (handleNumberClick (String.singleton d) s).display = true
      unfold handleNumberClick
      split_ifs with h1 h2
      · show specDisplayGrammar (String.singleton d) = true
        exact grammar_no_dot hnds (intPartOK_singleton hd)
      · show specDisplayGrammar (String.singleton d) = true
        exact grammar_no_dot hnds (intPartOK_singleton hd)
      · show specDisplayGrammar (s.display ++ String.singleton d) = true
        have hsd : String.singleton d ≠ "." := by
          intro e
          exact hdd (List.singleton_injective (congrArg String.toList e))
        have h0 : s.display ≠ "0" := fun e => h2 ⟨e, hsd⟩
        have h0l : s.display.toList ≠ ['0'] := fun e => h0 (string_toList_inj e)
        rw [show s.display ++ String.singleton d =
          String.mk (s.display.toList ++ [d]) from by
            rw [← string_mk_toList (s.display ++ String.singleton d),
              string_toList_append]
            rfl]
        rcases grammar_cases h with ⟨hnd, hip⟩ | ⟨a, b, he, hnd, hip, hb⟩
        · refine grammar_no_dot ?_ (intPartOK_append_digit hip h0l hd)
          intro m
          rcases List.mem_append.mp m with m1 | m2
          · exact hnd m1
          · exact hdd (List.mem_singleton.mp m2).symm
        · rw [he, List.append_assoc, List.cons_append]
          refine grammar_dot hnd hip ?_
          refine List.all_eq_true.mpr ?_
          intro x m
          rcases List.mem_append.mp m with m1 | m2
          · exact List.all_eq_true.mp hb x m1
          · exact (List.mem_singleton.mp m2) ▸ hd
  | decimalPoint =>
      show specDisplayGrammar (handleDecimal s).display = true
      unfold handleDecimal
      split_ifs with h1 h2
      · show specDisplayGrammar ("0.") = true
        decide
      · exact h
      · show specDisplayGrammar (s.display ++ ".") = true
        rw [show s.display ++ "." = String.mk (s.display.toList ++ '.' :: []) from by
          rw [← string_mk_toList (s.display ++ "."), string_toList_append]
          rfl]
        rcases grammar_cases h with ⟨hnd, hip⟩ | ⟨a, b, he, hnd, hip, hb⟩
        · exact grammar_dot h2 hip (by decide)
        · exact absurd (he ▸ List.mem_append.mpr
            (Or.inr (List.mem_cons_self '.' b))) h2
  | binaryOperator op => exact absurd ho (by simp [isEntryOp])
  | modulo => exact absurd ho (by simp [isEntryOp])
  | square => exact absurd ho (by simp [isEntryOp])
  | equals => exact absurd ho (by simp [isEntryOp])
  | clear =>
      show specDisplayGrammar ("0") = true
      decide
  | backspace =>
      show specDisplayGrammar (handleBackspace s).display = true
      unfold handleBackspace
      split_ifs with hlen
      · show specDisplayGrammar (String.mk s.display.toList.dropLast) = true
        have hlen2 : 2 ≤ s.display.toList.length := hlen
        rcases grammar_cases h with ⟨hnd, hip⟩ | ⟨a, b, he, hnd, hip, hb⟩
        · refine grammar_no_dot ?_ (intPartOK_dropLast hip hlen2)
          exact fun m => hnd (List.dropLast_subset _ m)
        · rw [he]
          cases b with
          | nil =>
              rw [show a ++ '.' :: ([] : List Char) = a ++ ['.'] from rfl,
                List.dropLast_concat]
              exact grammar_no_dot hnd hip
          | cons b0 bs =>
              rw [List.dropLast_append_cons]
              rw [show ('.' :: b0 :: bs).dropLast = '.' :: (b0 :: bs).dropLast from
                List.dropLast_cons₂]
              exact grammar_dot hnd hip (isDigitList_dropLast hb)
      · show specDisplayGrammar ("0") = true
        decide

/-- Sequences of entry operations preserve the display grammar. -/
theorem applyOps_entry_grammar (ops : List CalcOp) (s : CalcState)
    (hops : ∀ o ∈ ops, isEntryOp o = true)
    (h : specDisplayGrammar s.display = true) :
    specDisplayGrammar (applyOps ops s).display = true := by
  induction ops generalizing s with
  | nil => exact h
  | cons o ops ih =>
      exact ih (step o s) (fun o2 m => hops o2 (List.mem_cons_of_mem o m))
        (entry_step_grammar o s (hops o (List.mem_cons_self o ops)) h)

/-- C3 amended: along every sequence of entry operations — digit presses
with digit characters, decimal point, backspace and clear — from the
initial state, the display matches the spec grammar.  Sequences that
involve `binaryOperator`, `modulo`, `square` or `equals` can show
computed results such as "-2" that leave the grammar (see the
counterexample), so the invariant is restricted to the entry
operations. -/
theorem C3_entry_ops_preserve_grammar (ops : List CalcOp)
    (hops : ∀ o ∈ ops, isEntryOp o = true) :
    specDisplayGrammar (applyOps ops initialState).display = true := by
  exact applyOps_entry_grammar ops initialState hops (by decide)

/-- C3 amended witness: a concrete entry run 1, 0, point, 5, backspace
keeps the display inside the grammar. -/
theorem C3_witness_entry_run :
    (∀ o ∈ [CalcOp.digit '1', CalcOp.digit '0', CalcOp.decimalPoint,
      CalcOp.digit '5', CalcOp.backspace], isEntryOp o = true) ∧
    specDisplayGrammar ((applyOps [CalcOp.digit '1', CalcOp.digit '0',
      CalcOp.decimalPoint, CalcOp.digit '5', CalcOp.backspace]
      initialState).display) = true := by
  refine ⟨by decide, ?_⟩
  exact C3_entry_ops_preserve_grammar _ (by decide)

/-- C9: for nonzero b, the engine's modulo returns the truncating,
sign-of-dividend remainder: the result r equals a - trunc(a/b)·b, so
a = q·b + r for the truncated quotient q, and r is zero or has the sign
of a. -/
theorem C9_modulo_truncating_remainder (a b : ℚ) (hb : b ≠ 0) :
    (performCalculation (JsNum.num a) (JsNum.num b) Op.mod).1 =
      JsNum.num (ratFmod a b) ∧
    a = (ratTrunc (a / b) : ℚ) * b + ratFmod a b ∧
    (ratFmod a b = 0 ∨ (0 < a ∧ 0 < ratFmod a b) ∨ (a < 0 ∧ ratFmod a b < 0)) := by
  refine ⟨?_, ?_, ?_⟩
  · simp [performCalculation, jsEqZero, hb, jsModNZ]
  · unfold ratFmod
    ring
  · set x := a / b with hx
    have hab : b * x = a := by
      rw [hx]
      field_simp
    unfold ratFmod
    rcases le_or_lt 0 x with hx0 | hx0
    · rw [show ratTrunc (a / b) = Int.floor x from by rw [ratTrunc, ← hx, if_pos hx0]]
      have hfl : (Int.floor x : ℚ) ≤ x := Int.floor_le x
      by_cases hf : x = (Int.floor x : ℚ)
      · left
        rw [← hab, ← hf]
        ring
      · have hflt : (Int.floor x : ℚ) < x := lt_of_le_of_ne hfl (Ne.symm hf)
        have hxpos : 0 < x := by
          refine lt_of_le_of_ne hx0 ?_
          intro e
          apply hf
          rw [← e]
          norm_num
        right
        rcases hb.lt_or_lt with hbneg | hbpos
        · right
          constructor
          · rw [← hab]
            exact mul_neg_of_neg_of_pos hbneg hxpos
          · have : a - b * (Int.floor x : ℚ) = b * (x - (Int.floor x : ℚ)) := by
              rw [← hab]; ring
            rw [this]
            exact mul_neg_of_neg_of_pos hbneg (by linarith)
        · left
          constructor
          · rw [← hab]
            exact mul_pos hbpos hxpos
          · have : a - b * (Int.floor x : ℚ) = b * (x - (Int.floor x : ℚ)) := by
              rw [← hab]; ring
            rw [this]
            exact mul_pos hbpos (by linarith)
    · rw [show ratTrunc (a / b) = Int.ceil x from by
        rw [ratTrunc, ← hx, if_neg (not_le.mpr hx0)]]
      have hcl : x ≤ (Int.ceil x : ℚ) := Int.le_ceil x
      by_cases hf : x = (Int.ceil x : ℚ)
      · left
        rw [← hab, ← hf]
        ring
      · have hclt : x < (Int.ceil x : ℚ) := lt_of_le_of_ne hcl hf
        right
        rcases hb.lt_or_lt with hbneg | hbpos
        · left
          constructor
          · rw [← hab]
            exact mul_pos_of_neg_of_neg hbneg hx0
          · have : a - b * (Int.ceil x : ℚ) = b * (x - (Int.ceil x : ℚ)) := by
              rw [← hab]; ring
            rw [this]
            exact mul_pos_of_neg_of_neg hbneg (by linarith)
        · right
          constructor
          · rw [← hab]
            exact mul_neg_of_pos_of_neg hbpos hx0
          · have : a - b * (Int.ceil x : ℚ) = b * (x - (Int.ceil x : ℚ)) := by
              rw [← hab]; ring
            rw [this]
            exact mul_neg_of_pos_of_neg hbpos (by linarith)

/-- C9 witness: at a = -7, b = 3 the hypotheses hold and the conclusion
instantiates (the remainder is -1, matching the sign of the dividend). -/
theorem C9_witness_neg_seven_mod_three :
    (3 : ℚ) ≠ 0 ∧
    ((performCalculation (JsNum.num (-7)) (JsNum.num 3) Op.mod).1 =
        JsNum.num (ratFmod (-7) 3) ∧
      (-7 : ℚ) = (ratTrunc ((-7) / 3) : ℚ) * 3 + ratFmod (-7) 3 ∧
      (ratFmod (-7) 3 = 0 ∨ (0 < (-7 : ℚ) ∧ 0 < ratFmod (-7) 3) ∨
        ((-7 : ℚ) < 0 ∧ ratFmod (-7) 3 < 0))) := by
  exact ⟨by norm_num, C9_modulo_truncating_remainder (-7) 3 (by norm_num)⟩

/-- Digit characters round-trip through their value. -/
theorem digitVal_digitChar (n : Nat) (h : n < 10) : digitVal (digitChar n) = n := by
  interval_cases n <;> decide

/-- Digit characters are digits. -/
theorem isDigit_digitChar (n : Nat) (h : n < 10) : (digitChar n).isDigit = true := by
  interval_cases n <;> decide

/-- The digit expansion of a natural number is never empty. -/
theorem natToRevDigits_ne_nil (n : Nat) : natToRevDigits n ≠ [] := by
  rw [natToRevDigits]
  split <;> simp

/-- All characters of the digit expansion are digits. -/
theorem natToRevDigits_digits (n : Nat) :
    ∀ c ∈ natToRevDigits n, c.isDigit = true := by
  rw [natToRevDigits]
  split
  · intro c m
    rw [List.mem_singleton.mp m]
    exact isDigit_digitChar n (by omega)
  · intro c m
    rcases List.mem_cons.mp m with e | m2
    · rw [e]
      exact isDigit_digitChar (n % 10) (Nat.mod_lt n (by omega))
    · exact natToRevDigits_digits (n / 10) c m2
termination_by n
decreasing_by
  exact Nat.div_lt_self (by omega) (by omega)

/-- All characters of a printed natural number are digits. -/
theorem natStr_digits (n : Nat) : ∀ c ∈ natStr n, c.isDigit = true := by
  intro c m
  exact natToRevDigits_digits n c (List.mem_reverse.mp m)

/-- A printed natural number is never the empty string. -/
theorem natStr_ne_nil (n : Nat) : natStr n ≠ [] := by
  unfold natStr
  simpa using natToRevDigits_ne_nil n

/-- Folding the digit-value accumulator over a list. -/
theorem digitsToNat_go (l : List Char) (acc : Nat) :
    l.foldl (fun a c => a * 10 + digitVal c) acc =
      acc * 10 ^ l.length + digitsToNatVal l := by
  induction l generalizing acc with
  | nil => simp [digitsToNatVal]
  | cons c cs ih =>
      rw [List.foldl_cons, ih (acc * 10 + digitVal c)]
      have h0 : digitsToNatVal (c :: cs) =
          List.foldl (fun a c => a * 10 + digitVal c) (0 * 10 + digitVal c) cs := rfl
      rw [h0, ih (0 * 10 + digitVal c), List.length_cons]
      ring

/-- Value of a cons of digit characters. -/
theorem digitsToNatVal_cons (c : Char) (cs : List Char) :
    digitsToNatVal (c :: cs) = digitVal c * 10 ^ cs.length + digitsToNatVal cs := by
  have h0 : digitsToNatVal (c :: cs) =
      List.foldl (fun a c => a * 10 + digitVal c) (0 * 10 + digitVal c) cs := rfl
  rw [h0, digitsToNat_go]
  ring

/-- Value of an append of digit strings. -/
theorem digitsToNatVal_append (a b : List Char) :
    digitsToNatVal (a ++ b) = digitsToNatVal a * 10 ^ b.length + digitsToNatVal b := by
  unfold digitsToNatVal
  rw [List.foldl_append]
  exact digitsToNat_go b _

/-- Printing then reading a natural number is the identity. -/
theorem digitsToNatVal_natStr (n : Nat) : digitsToNatVal (natStr n) = n := by
  rw [natStr, natToRevDigits]
  split
  · next h =>
      rw [List.reverse_singleton, digitsToNatVal_cons]
      simp [digitsToNatVal, digitVal_digitChar n h]
  · next h =>
      rw [List.reverse_cons, digitsToNatVal_append]
      have ih := digitsToNatVal_natStr (n / 10)
      rw [natStr] at ih
      rw [ih, digitsToNatVal_cons]
      simp [digitsToNatVal, digitVal_digitChar (n % 10) (Nat.mod_lt n (by omega))]
      omega
termination_by n
decreasing_by
  exact Nat.div_lt_self (by omega) (by omega)

/-- Leading zeros do not change the value of a digit string. -/
theorem digitsToNatVal_replicate_zero (j : Nat) (l : List Char) :
    digitsToNatVal (List.replicate j '0' ++ l) = digitsToNatVal l := by
  rw [digitsToNatVal_append]
  have hz : digitsToNatVal (List.replicate j '0') = 0 := by
    induction j with
    | zero => rfl
    | succ j ih =>
        rw [List.replicate_succ, digitsToNatVal_cons, ih]
        have h0 : digitVal '0' = 0 := by decide
        rw [h0]
        ring
  rw [hz]
  ring

/-- A digit run followed by a non-digit (or nothing) spans exactly. -/
theorem spanDigits_of_digits (a : List Char) (r : List Char)
    (ha : ∀ c ∈ a, c.isDigit = true)
    (hr : ∀ c t, r = c :: t → c.isDigit = false) :
    spanDigits (a ++ r) = (a, r) := by
  induction a with
  | nil =>
      cases r with
      | nil => rfl
      | cons c t =>
          have hc := hr c t rfl
          simp [spanDigits, hc]
  | cons c cs ih =>
      have hc : c.isDigit = true := ha c (List.mem_cons_self c cs)
      have ih2 := ih (fun x m => ha x (List.mem_cons_of_mem c m))
      simp [spanDigits, hc, ih2]

/-- Without a leading sign character, `parseSign` consumes nothing. -/
theorem parseSign_no_sign (l : List Char)
    (h : ∀ c t, l = c :: t → (c ≠ '-' ∧ c ≠ '+')) : parseSign l = (false, l) := by
  cases l with
  | nil => rfl
  | cons c t =>
      obtain ⟨h1, h2⟩ := h c t rfl
      simp [parseSign, h1, h2]

/-- Left-padding reaches the requested length. -/
theorem leftPad_length (n : Nat) (l : List Char) : n ≤ (leftPad n l).length := by
  unfold leftPad
  rw [List.length_append, List.length_replicate]
  omega

/-- Left-padding a digit string with zeros keeps it a digit string. -/
theorem leftPad_digits (n : Nat) (l : List Char)
    (hl : ∀ c ∈ l, c.isDigit = true) : ∀ c ∈ leftPad n l, c.isDigit = true := by
  intro c m
  rcases List.mem_append.mp m with m1 | m2
  · rw [List.eq_of_mem_replicate m1]
    decide
  · exact hl c m2

/-- The decimal rendering of a natural number starts with a digit. -/
theorem insertPoint_natStr_head (m k : Nat) :
    ∃ c t, insertPoint (natStr m) k = c :: t ∧ c.isDigit = true := by
  unfold insertPoint
  split
  · cases hns : natStr m with
    | nil => exact absurd hns (natStr_ne_nil m)
    | cons c t => exact ⟨c, t, rfl, natStr_digits m c (hns ▸ List.mem_cons_self c t)⟩
  · next hk =>
      set p := leftPad (k + 1) (natStr m) with hpdef
      have hplen : k + 1 ≤ p.length := leftPad_length _ _
      cases ht : p.take (p.length - k) with
      | nil =>
          exfalso
          have h1 : (p.take (p.length - k)).length = p.length - k := by
            rw [List.length_take]
            omega
          rw [ht] at h1
          simp at h1
          omega
      | cons c t =>
          refine ⟨c, t ++ '.' :: p.drop (p.length - k), ?_, ?_⟩
          · show p.take (p.length - k) ++ '.' :: p.drop (p.length - k) = _
            rw [ht]
            rfl
          · have hmem : c ∈ p := List.take_subset _ _ (ht ▸ List.mem_cons_self c t)
            exact leftPad_digits (k + 1) (natStr m) (natStr_digits m) c hmem

/-- Parsing the unsigned decimal rendering of `m` with `k` fraction
places recovers `m / 10 ^ k`. -/
theorem parseUnsignedDec_insertPoint (m k : Nat) :
    parseUnsignedDec (insertPoint (natStr m) k) = some ((m : ℚ) / 10 ^ k) := by
  unfold insertPoint
  split
  · next hk =>
      subst hk
      have hspan : spanDigits (natStr m ++ []) = (natStr m, []) :=
        spanDigits_of_digits (natStr m) [] (natStr_digits m)
          (fun c t e => absurd e (by simp))
      rw [List.append_nil] at hspan
      rw [parseUnsignedDec, hspan]
      simp only [parseFracPart]
      rw [if_neg (fun hh => natStr_ne_nil m hh.1)]
      rw [digitsToNatVal_natStr]
      norm_num [digitsToNatVal]
  · next hk =>
      set p := leftPad (k + 1) (natStr m) with hpdef
      show parseUnsignedDec (p.take (p.length - k) ++ '.' :: p.drop (p.length - k)) = _
      have hplen : k + 1 ≤ p.length := leftPad_length _ _
      have hpdig : ∀ c ∈ p, c.isDigit = true := leftPad_digits _ _ (natStr_digits m)
      have hpval : digitsToNatVal p = m := by
        rw [hpdef]
        unfold leftPad
        rw [digitsToNatVal_replicate_zero, digitsToNatVal_natStr]
      set t := p.take (p.length - k) with htdef
      set d := p.drop (p.length - k) with hddef
      have htd : t ++ d = p := List.take_append_drop _ _
      have htdig : ∀ c ∈ t, c.isDigit = true :=
        fun c mc => hpdig c (List.take_subset _ _ mc)
      have hddig : ∀ c ∈ d, c.isDigit = true :=
        fun c mc => hpdig c (List.drop_subset _ _ mc)
      have hdlen : d.length = k := by
        rw [hddef, List.length_drop]
        omega
      have htne : ¬t = [] := by
        intro e
        have h1 : t.length = p.length - k := by
          rw [htdef, List.length_take]
          omega
        rw [e] at h1
        simp at h1
        omega
      have hspan1 : spanDigits (t ++ '.' :: d) = (t, '.' :: d) :=
        spanDigits_of_digits t ('.' :: d) htdig (fun c t2 e => by
          obtain ⟨e1, e2⟩ := List.cons.inj e
          rw [← e1]
          decide)
      have hspan2 : spanDigits (d ++ []) = (d, []) :=
        spanDigits_of_digits d [] hddig (fun c t2 e => absurd e (by simp))
      rw [List.append_nil] at hspan2
      have hfp : parseFracPart ('.' :: d) = d := by
        simp [parseFracPart, hspan2]
      have hm : digitsToNatVal t * 10 ^ k + digitsToNatVal d = m := by
        rw [← hpval, ← htd, digitsToNatVal_append, hdlen]
      rw [parseUnsignedDec, hspan1]
      simp only [hfp]
      rw [if_neg (fun hh => htne hh.1)]
      rw [hdlen]
      refine congrArg some ?_
      rw [← hm]
      push_cast
      field_simp

/-- Rational cast of the absolute value of a negative integer. -/
theorem natAbs_cast_of_neg {n : ℤ} (h : n < 0) : ((n.natAbs : ℚ)) = -(n : ℚ) := by
  rw [Int.cast_natAbs]
  push_cast
  exact abs_of_neg (show (n : ℚ) < 0 by exact_mod_cast h)

/-- Rational cast of the absolute value of a non-negative integer. -/
theorem natAbs_cast_of_nonneg {n : ℤ} (h : 0 ≤ n) : ((n.natAbs : ℚ)) = (n : ℚ) := by
  rw [Int.cast_natAbs]
  push_cast
  exact abs_of_nonneg (show (0 : ℚ) ≤ (n : ℚ) by exact_mod_cast h)

/-- Without a leading minus, `parseNegSign` consumes nothing. -/
theorem parseNegSign_no (l : List Char) (h : ∀ c t, l = c :: t → c ≠ '-') :
    parseNegSign l = (false, l) := by
  cases l with
  | nil => rfl
  | cons c t => simp [parseNegSign, h c t rfl]

/-- The printed mantissa over its power of ten is the absolute value of
the rational. -/
theorem ratDecimal_value (q : ℚ) (h10 : 10 ^ ratDecExp q % q.den = 0) :
    ((q.num.natAbs * (10 ^ ratDecExp q / q.den) : ℕ) : ℚ) / 10 ^ ratDecExp q =
      (q.num.natAbs : ℚ) / (q.den : ℚ) := by
  have hdvd : q.den ∣ 10 ^ ratDecExp q := Nat.dvd_of_mod_eq_zero h10
  have hmul : (q.num.natAbs * (10 ^ ratDecExp q / q.den)) * q.den =
      q.num.natAbs * 10 ^ ratDecExp q := by
    rw [mul_assoc, Nat.div_mul_cancel hdvd]
  have hden : (q.den : ℚ) ≠ 0 := by
    exact_mod_cast q.den_nz
  have hpow : ((10 : ℚ)) ^ ratDecExp q ≠ 0 := by positivity
  rw [div_eq_div_iff hpow hden]
  exact_mod_cast hmul

/-- Reading an unsigned printed decimal gives the mantissa over the
power of ten. -/
theorem parseFloatList_insertPoint (m k : Nat) :
    parseFloatList (insertPoint (natStr m) k) = JsNum.num ((m : ℚ) / 10 ^ k) := by
  obtain ⟨c, t, he, hc⟩ := insertPoint_natStr_head m k
  have hsign : parseSign (insertPoint (natStr m) k) =
      (false, insertPoint (natStr m) k) := by
    apply parseSign_no_sign
    intro c2 t2 e
    rw [he] at e
    obtain ⟨e1, _⟩ := List.cons.inj e
    subst e1
    constructor
    · intro ee
      rw [ee] at hc
      exact absurd hc (by decide)
    · intro ee
      rw [ee] at hc
      exact absurd hc (by decide)
  unfold parseFloatList
  simp only [hsign]
  rw [parseUnsignedDec_insertPoint]
  simp

/-- Bridge: parsing a string that does not start with the fraction
marker goes through `parseFloatList`. -/
theorem parseNum_mk_cons (c : Char) (t : List Char) (hc : c ≠ '~') :
    parseNum (String.mk (c :: t)) = parseFloatList (c :: t) := by
  show (if c = '~' then parseFraction t else parseFloatList (c :: t)) =
    parseFloatList (c :: t)
  rw [if_neg hc]

/-- Bridge: parsing a string that starts with the fraction marker goes
through `parseFraction`. -/
theorem parseNum_mk_tilde (t : List Char) :
    parseNum (String.mk ('~' :: t)) = parseFraction t := by
  show (if '~' = '~' then parseFraction t else parseFloatList ('~' :: t)) =
    parseFraction t
  rw [if_pos rfl]

/-- Reading back a decimal printed by `ratDecimal` recovers the
rational. -/
theorem parseNum_of_ratDecimal (q : ℚ) (l : List Char) (h : ratDecimal q = some l) :
    parseNum (String.mk l) = JsNum.num q := by
  unfold ratDecimal at h
  by_cases h10 : 10 ^ ratDecExp q % q.den = 0
  case neg =>
    rw [if_neg h10] at h
    exact absurd h (by simp)
  rw [if_pos h10] at h
  have hl := Option.some.inj h
  obtain ⟨c, t, he, hc⟩ := insertPoint_natStr_head
    (q.num.natAbs * (10 ^ ratDecExp q / q.den)) (ratDecExp q)
  have hval := ratDecimal_value q h10
  subst hl
  by_cases hneg : q.num < 0
  · rw [if_pos hneg]
    rw [show ((['-'] ++ insertPoint
        (natStr (q.num.natAbs * (10 ^ ratDecExp q / q.den))) (ratDecExp q))) =
      '-' :: insertPoint
        (natStr (q.num.natAbs * (10 ^ ratDecExp q / q.den))) (ratDecExp q) from rfl]
    rw [parseNum_mk_cons '-' _ (by decide)]
    unfold parseFloatList
    have hps : parseSign ('-' :: insertPoint
        (natStr (q.num.natAbs * (10 ^ ratDecExp q / q.den))) (ratDecExp q)) =
        (true, insertPoint
          (natStr (q.num.natAbs * (10 ^ ratDecExp q / q.den))) (ratDecExp q)) := by
      simp [parseSign]
    simp only [hps]
    rw [parseUnsignedDec_insertPoint]
    simp only [if_true]
    refine congrArg JsNum.num ?_
    rw [hval, natAbs_cast_of_neg hneg]
    rw [neg_div, neg_neg, Rat.num_div_den]
  · rw [if_neg hneg]
    rw [List.nil_append]
    rw [he]
    rw [parseNum_mk_cons c t (fun e => by
      rw [e] at hc
      exact absurd hc (by decide))]
    rw [← he]
    rw [parseFloatList_insertPoint]
    refine congrArg JsNum.num ?_
    rw [hval, natAbs_cast_of_nonneg (not_lt.mp hneg), Rat.num_div_den]

/-- Reading back the marked fraction form recovers the rational. -/
theorem parseNum_of_fraction (q : ℚ) :
    parseNum (String.mk ('~' :: (intStr q.num ++ '/' :: natStr q.den))) =
      JsNum.num q := by
  rw [parseNum_mk_tilde]
  unfold intStr
  have hsp1 : spanDigits (natStr q.num.natAbs ++ '/' :: natStr q.den) =
      (natStr q.num.natAbs, '/' :: natStr q.den) :=
    spanDigits_of_digits _ _ (natStr_digits _) (fun c2 t2 e => by
      obtain ⟨e1, _⟩ := List.cons.inj e
      rw [← e1]
      decide)
  have hsp2 : spanDigits (natStr q.den ++ []) = (natStr q.den, []) :=
    spanDigits_of_digits _ _ (natStr_digits _) (fun c2 t2 e => absurd e (by simp))
  rw [List.append_nil] at hsp2
  have hden : (q.den : ℚ) ≠ 0 := by
    exact_mod_cast q.den_nz
  by_cases hneg : q.num < 0
  · rw [if_pos hneg]
    rw [show (['-'] ++ natStr q.num.natAbs) ++ '/' :: natStr q.den =
      '-' :: (natStr q.num.natAbs ++ '/' :: natStr q.den) from rfl]
    unfold parseFraction
    have hns : parseNegSign ('-' :: (natStr q.num.natAbs ++ '/' :: natStr q.den)) =
        (true, natStr q.num.natAbs ++ '/' :: natStr q.den) := by
      simp [parseNegSign]
    simp only [hns, hsp1, hsp2, if_true]
    rw [if_pos (show natStr q.num.natAbs ≠ [] ∧ natStr q.den ≠ [] ∧ True from
      ⟨natStr_ne_nil _, natStr_ne_nil _, trivial⟩)]
    refine congrArg JsNum.num ?_
    rw [digitsToNatVal_natStr, digitsToNatVal_natStr]
    rw [natAbs_cast_of_neg hneg]
    rw [neg_neg, Rat.num_div_den]
  · rw [if_neg hneg]
    rw [List.nil_append]
    unfold parseFraction
    have hns : parseNegSign (natStr q.num.natAbs ++ '/' :: natStr q.den) =
        (false, natStr q.num.natAbs ++ '/' :: natStr q.den) := by
      apply parseNegSign_no
      intro c2 t2 e
      have hmem : c2 ∈ natStr q.num.natAbs ++ '/' :: natStr q.den := by
        rw [e]
        exact List.mem_cons_self c2 t2
      intro ee
      subst ee
      cases hns0 : natStr q.num.natAbs with
      | nil => exact natStr_ne_nil _ hns0
      | cons c0 t0 =>
          rw [hns0] at e
          obtain ⟨e1, _⟩ := List.cons.inj e
          have := natStr_digits q.num.natAbs c0 (hns0 ▸ List.mem_cons_self c0 t0)
          rw [e1] at this
          exact absurd this (by decide)
    simp only [hns, hsp1, hsp2, if_true]
    rw [if_pos (show natStr q.num.natAbs ≠ [] ∧ natStr q.den ≠ [] ∧ True from
      ⟨natStr_ne_nil _, natStr_ne_nil _, trivial⟩)]
    rw [if_neg (show ¬(false = true) by decide)]
    refine congrArg JsNum.num ?_
    rw [digitsToNatVal_natStr, digitsToNatVal_natStr]
    rw [natAbs_cast_of_nonneg (not_lt.mp hneg), Rat.num_div_den]

/-- The JS round-trip law: reading back a printed number is the
identity, for every number the engine can hold. -/
theorem parseNum_numToString (x : JsNum) : parseNum (numToString x) = x := by
  cases x with
  | nan => decide
  | num q =>
      cases hrd : ratDecimal q with
      | some l =>
          have hh : numToString (JsNum.num q) = String.mk l := by
            show (match ratDecimal q with
              | some l2 => String.mk l2
              | none => String.mk ('~' :: (intStr q.num ++ '/' :: natStr q.den))) =
              String.mk l
            rw [hrd]
          rw [hh]
          exact parseNum_of_ratDecimal q l hrd
      | none =>
          have hh : numToString (JsNum.num q) =
              String.mk ('~' :: (intStr q.num ++ '/' :: natStr q.den)) := by
            show (match ratDecimal q with
              | some l2 => String.mk l2
              | none => String.mk ('~' :: (intStr q.num ++ '/' :: natStr q.den))) =
              String.mk ('~' :: (intStr q.num ++ '/' :: natStr q.den))
            rw [hrd]
          rw [hh]
          exact parseNum_of_fraction q

/-- An operator press always sets the entry-reset flag. -/
theorem handleOperation_resets (op : Op) (s : CalcState) :
    (handleOperation op s).shouldResetDisplay = true := by
  obtain ⟨d, pv, co, rst, od, al⟩ := s
  cases pv <;> cases co <;> cases rst <;> rfl

/-- After an operator press the pending operand is the numeric value of
the shown display (using the round-trip law in the chaining branch). -/
theorem handleOperation_prev_eq_parse (op : Op) (s : CalcState) :
    (handleOperation op s).previousValue =
      some (parseNum ((handleOperation op s).display)) := by
  obtain ⟨d, pv, co, rst, od, al⟩ := s
  cases pv with
  | none => cases co <;> cases rst <;> rfl
  | some prev =>
      cases co with
      | none => cases rst <;> rfl
      | some prevOp =>
          cases rst with
          | true => rfl
          | false => simp [handleOperation, parseNum_numToString]

/-- On a state whose reset flag is set, an operator press only stores the
parsed display and the new operator. -/
theorem handleOperation_of_reset (op : Op) (t : CalcState)
    (h : t.shouldResetDisplay = true) :
    handleOperation op t =
      { t with previousValue := some (parseNum t.display)
               currentOperation := some op
               operationDisplay :=
                 updateOperationDisplayText (some op) (some (parseNum t.display))
               shouldResetDisplay := true } := by
  obtain ⟨d, pv, co, rst, od, al⟩ := t
  cases rst with
  | true => cases pv <;> cases co <;> rfl
  | false => simp at h

/-- C5: pressing two operators in a row with nothing in between changes
only the pending operator: the pending operand keeps the value it held
after the first press and the display does not change between the two
presses. -/
theorem C5_double_operator_keeps_operand (s : CalcState) (op1 op2 : Op) :
    (handleOperation op2 (handleOperation op1 s)).currentOperation = some op2 ∧
    (handleOperation op2 (handleOperation op1 s)).previousValue =
      (handleOperation op1 s).previousValue ∧
    (handleOperation op2 (handleOperation op1 s)).display =
      (handleOperation op1 s).display := by
  rw [handleOperation_of_reset op2 (handleOperation op1 s)
    (handleOperation_resets op1 s)]
  refine ⟨rfl, ?_, rfl⟩
  exact (handleOperation_prev_eq_parse op1 s).symm
